import Mathlib

/-!
Verification of the thread-pool core (`src/util/threadpool.rs`).

Shallow embedding conventions:
* `u64` / `usize` values are `Nat` reduced modulo `u64Lim = 2 ^ 64` wherever Rust
  arithmetic can wrap (`next_task_id += 1`, the atomic task counter).
* The job closure `Box<FnBox(C) + Send>` is an opaque value of a type parameter `J`;
  the pool never inspects it, it is only moved around and (in the worker) invoked,
  which we record as a trace event.
* Stateful Rust methods (`&mut self`) become state-passing functions.
* The hand-off mpsc channel is modelled by the list `TaskPool.jobs` holding the
  tasks in arrival order: `Sender::send` appends, `Receiver::try_recv` takes the head.
* Everything a worker does while holding the pool mutex happens inside the atomic
  step `Worker.get_next_task`; the events it returns are exactly the under-lock
  actions, in order.  `Condvar::wait` is modelled by the `blocked` outcome: in the
  sequential embedding nothing can signal the sleeping worker.
-/

namespace Threadpool

/-- `2 ^ 64`, the modulus of `u64` / 64-bit `usize` arithmetic. -/
def u64Lim : Nat := 2 ^ 64

/-- `const DEFAULT_QUEUE_CAPACITY: usize = 1000;` -/
def DEFAULT_QUEUE_CAPACITY : Nat := 1000

/-- `const QUEUE_MAX_CAPACITY: usize = 8 * DEFAULT_QUEUE_CAPACITY;` -/
def QUEUE_MAX_CAPACITY : Nat := 8 * DEFAULT_QUEUE_CAPACITY

/-- `struct Task<T, C>`: id (`u64`), group id, job closure (opaque `J`), context. -/
structure Task (T C J : Type) where
  id : Nat
  gid : T
  task : J
  ctx : C
  deriving Repr

/-- `Task::new`: constructs a task with `id` left at 0 (assigned later). -/
def Task.new {T C J : Type} (gid : T) (job : J) (ctx : C) : Task T C J :=
  { id := 0, gid := gid, task := job, ctx := ctx }

/-- `impl Ord for Task`: `self.id.cmp(&right.id).reverse()`. -/
def Task.cmp {T C J : Type} (a b : Task T C J) : Ordering :=
  (compare a.id b.id).swap

/-- `impl PartialEq for Task`: `self.cmp(right) == Ordering::Equal`. -/
def Task.beq {T C J : Type} (a b : Task T C J) : Bool :=
  Task.cmp a b == Ordering.eq

/-- Model of `std::collections::VecDeque`: element list plus a capacity.
The growth step on a full push mirrors amortized doubling; no claim depends on
the exact grown capacity, only on how `FifoQueue::pop` tests and resets it. -/
structure VecDeque (α : Type) where
  items : List α
  cap : Nat
  deriving Repr

/-- `VecDeque::with_capacity`. -/
def VecDeque.withCapacity {α : Type} (n : Nat) : VecDeque α :=
  { items := [], cap := n }

/-- `VecDeque::push_back`. -/
def VecDeque.push_back {α : Type} (d : VecDeque α) (a : α) : VecDeque α :=
  { items := d.items ++ [a],
    cap := if d.items.length < d.cap then d.cap else max (2 * d.cap) (d.items.length + 1) }

/-- `VecDeque::pop_front`, returning the removed element and the new deque. -/
def VecDeque.pop_front {α : Type} (d : VecDeque α) : Option α × VecDeque α :=
  match d.items with
  | [] => (none, d)
  | a :: rest => (some a, { items := rest, cap := d.cap })

/-- `VecDeque::is_empty`. -/
def VecDeque.is_empty {α : Type} (d : VecDeque α) : Bool :=
  d.items.isEmpty

/-- `VecDeque::capacity`. -/
def VecDeque.capacity {α : Type} (d : VecDeque α) : Nat :=
  d.cap

/-- `struct FifoQueue<T, C>`: a `VecDeque` of tasks. -/
structure FifoQueue (T C J : Type) where
  queue : VecDeque (Task T C J)

/-- `FifoQueue::new()`: `VecDeque::with_capacity(DEFAULT_QUEUE_CAPACITY)`. -/
def FifoQueue.new {T C J : Type} : FifoQueue T C J :=
  { queue := VecDeque.withCapacity DEFAULT_QUEUE_CAPACITY }

/-- `FifoQueue::push`: `self.queue.push_back(task)`. -/
def FifoQueue.push {T C J : Type} (q : FifoQueue T C J) (t : Task T C J) : FifoQueue T C J :=
  { queue := q.queue.push_back t }

/-- `FifoQueue::pop`: pop the front, then shrink the backing storage back to the
default capacity when the queue has drained completely while its capacity
exceeds `QUEUE_MAX_CAPACITY`. -/
def FifoQueue.pop {T C J : Type} (q : FifoQueue T C J) :
    Option (Task T C J) × FifoQueue T C J :=
  let r := q.queue.pop_front
  if r.2.is_empty && decide (QUEUE_MAX_CAPACITY < r.2.capacity) then
    (r.1, { queue := VecDeque.withCapacity DEFAULT_QUEUE_CAPACITY })
  else
    (r.1, { queue := r.2 })

/-- `trait ScheduleQueue<T, C>` as a state-passing typeclass. -/
class ScheduleQueue (Q T C J : Type) where
  pop : Q → Option (Task T C J) × Q
  push : Task T C J → Q → Q
  on_task_finished : T → Q → Q
  on_task_started : T → Q → Q

/-- `impl ScheduleQueue for FifoQueue`: FIFO push/pop, no-op hooks. -/
instance fifoScheduleQueue {T C J : Type} : ScheduleQueue (FifoQueue T C J) T C J where
  pop := FifoQueue.pop
  push := fun t q => q.push t
  on_task_finished := fun _ q => q
  on_task_started := fun _ q => q

/-- `struct TaskPool<Q, T, C>`: the state behind the pool mutex.  `jobs` is the
receive end of the hand-off channel, holding un-stamped tasks in arrival order. -/
structure TaskPool (Q T C J : Type) where
  next_task_id : Nat
  task_queue : Q
  stop : Bool
  jobs : List (Task T C J)

/-- `TaskPool::new(queue, jobs)`. -/
def TaskPool.new {Q T C J : Type} (queue : Q) (jobs : List (Task T C J)) :
    TaskPool Q T C J :=
  { next_task_id := 0, task_queue := queue, stop := false, jobs := jobs }

/-- `TaskPool::on_task_finished`: delegates to the scheduling queue. -/
def TaskPool.on_task_finished {Q T C J : Type} [ScheduleQueue Q T C J]
    (p : TaskPool Q T C J) (gid : T) : TaskPool Q T C J :=
  { p with task_queue := ScheduleQueue.on_task_finished (C := C) (J := J) gid p.task_queue }

/-- `TaskPool::on_task_started`: delegates to the scheduling queue. -/
def TaskPool.on_task_started {Q T C J : Type} [ScheduleQueue Q T C J]
    (p : TaskPool Q T C J) (gid : T) : TaskPool Q T C J :=
  { p with task_queue := ScheduleQueue.on_task_started (C := C) (J := J) gid p.task_queue }

/-- The `while let Ok(task) = self.jobs.try_recv()` loop of `try_fill_queue`,
as a fold over the pending channel items: each received task gets
`next_task_id` as id, the counter is incremented (`u64`, wrapping), and the
task is pushed into the scheduling queue. -/
def fillQueue {Q T C J : Type} [ScheduleQueue Q T C J]
    (next : Nat) (q : Q) : List (Task T C J) → Nat × Q
  | [] => (next, q)
  | t :: rest =>
    fillQueue ((next + 1) % u64Lim) (ScheduleQueue.push { t with id := next } q) rest

/-- `TaskPool::try_fill_queue`: drain every currently-available channel item
into the scheduling queue, stamping ids in drain order. -/
def TaskPool.try_fill_queue {Q T C J : Type} [ScheduleQueue Q T C J]
    (p : TaskPool Q T C J) : TaskPool Q T C J :=
  let r := fillQueue p.next_task_id p.task_queue p.jobs
  { p with next_task_id := r.1, task_queue := r.2, jobs := [] }

/-- `TaskPool::pop_task`: try the scheduling queue first; when that pop yields
nothing, drain the channel via `try_fill_queue` and retry the pop once. -/
def TaskPool.pop_task {Q T C J : Type} [ScheduleQueue Q T C J]
    (p : TaskPool Q T C J) : Option (Task T C J) × TaskPool Q T C J :=
  match ScheduleQueue.pop p.task_queue with
  | (some t, q) => (some t, { p with task_queue := q })
  | (none, q) =>
    let p1 := TaskPool.try_fill_queue { p with task_queue := q }
    let r := ScheduleQueue.pop (T := T) (C := C) (J := J) p1.task_queue
    (r.1, { p1 with task_queue := r.2 })

/-- `TaskPool::stop`: set the stop flag; nothing is drained or cancelled.
(Named `stopPool` because the field accessor `TaskPool.stop` takes the
source method's name.) -/
def TaskPool.stopPool {Q T C J : Type} (p : TaskPool Q T C J) : TaskPool Q T C J :=
  { p with stop := true }

/-- `TaskPool::is_stopped`. -/
def TaskPool.is_stopped {Q T C J : Type} (p : TaskPool Q T C J) : Bool :=
  p.stop

/-- Trace events.  `finished`, `popAttempt` and `started` happen while the pool
lock is held (inside `Worker.get_next_task`); `ctxStart`, `jobRun`,
`ctxComplete` and `decCount` happen outside the lock in `Worker::run`, tagged
with the id of the task being executed. -/
inductive WorkerEvent (T : Type) where
  | finished (gid : T)
  | popAttempt
  | started (gid : T)
  | ctxStart (id : Nat)
  | jobRun (id : Nat)
  | ctxComplete (id : Nat)
  | decCount (id : Nat)
  deriving DecidableEq, Repr

/-- Outcome of one lock acquisition in `Worker::get_next_task`. -/
inductive GetNextResult (T C J : Type) where
  | stopped
  | got (t : Task T C J)
  | blocked

/-- `Worker::get_next_task(prev_gid)`: under the lock, first report the
previous task's group as finished (when known), then: if the pool is stopped
return `None`; otherwise attempt `pop_task`, and on success report the popped
task's group as started — still under the lock — and return the task.  A
failed pop puts the worker to sleep on the condition variable, which the
sequential model renders as the `blocked` outcome.  The returned event list is
exactly what happened under the lock, in order. -/
def Worker.get_next_task {Q T C J : Type} [ScheduleQueue Q T C J]
    (prev_gid : Option T) (p : TaskPool Q T C J) :
    GetNextResult T C J × TaskPool Q T C J × List (WorkerEvent T) :=
  let st :=
    match prev_gid with
    | some g => (p.on_task_finished g, [WorkerEvent.finished g])
    | none => (p, [])
  if st.1.is_stopped then
    (GetNextResult.stopped, st.1, st.2)
  else
    match st.1.pop_task with
    | (some t, p1) =>
      (GetNextResult.got t, p1.on_task_started t.gid,
        st.2 ++ [WorkerEvent.popAttempt, WorkerEvent.started t.gid])
    | (none, p1) =>
      (GetNextResult.blocked, p1, st.2 ++ [WorkerEvent.popAttempt])

/-- Wrapping increment of the atomic task counter (`fetch_add(1)` on a 64-bit
`usize`). -/
def incWrap (n : Nat) : Nat := (n + 1) % u64Lim

/-- Wrapping decrement of the atomic task counter (`fetch_sub(1)` on a 64-bit
`usize`). -/
def decWrap (n : Nat) : Nat := (n + (u64Lim - 1)) % u64Lim

/-- The state a `ThreadPool` facade and its workers share: the mutex-protected
`TaskPool` plus the atomic live-task counter.  The spawned thread handles, the
channel send side and the context factory have no state of their own in the
sequential model (sending appends to `TaskPool.jobs`; join outcomes are a
parameter of `ThreadPool.stop`). -/
structure ThreadPoolSt (Q T C J : Type) where
  pool : TaskPool Q T C J
  task_count : Nat

/-- `Worker::run`, fuelled: fetch the next task (initially with no previous
group, afterwards with the group of the task just finished); for each task
obtained, invoke `ctx.on_start()`, run the job body, invoke
`ctx.on_complete()`, decrement the live-task counter, and loop.  `stopped`
ends the loop as in the source; `blocked` is the sequential rendering of the
condition-variable wait.  Returns the final state, the full event trace, and
the list of tasks executed, in execution order. -/
def Worker.runLoop {Q T C J : Type} [ScheduleQueue Q T C J] :
    Nat → Option T → ThreadPoolSt Q T C J →
    ThreadPoolSt Q T C J × List (WorkerEvent T) × List (Task T C J)
  | 0, _, s => (s, [], [])
  | fuel + 1, prev, s =>
    match Worker.get_next_task prev s.pool with
    | (GetNextResult.stopped, p1, ev) => ({ s with pool := p1 }, ev, [])
    | (GetNextResult.blocked, p1, ev) => ({ s with pool := p1 }, ev, [])
    | (GetNextResult.got t, p1, ev) =>
      let r := Worker.runLoop fuel (some t.gid)
        { pool := p1, task_count := decWrap s.task_count }
      (r.1,
       ev ++ [WorkerEvent.ctxStart t.id, WorkerEvent.jobRun t.id,
              WorkerEvent.ctxComplete t.id, WorkerEvent.decCount t.id] ++ r.2.1,
       t :: r.2.2)

/-- A worker thread's whole life (`Worker::run`), starting with no previous
group id. -/
def Worker.run {Q T C J : Type} [ScheduleQueue Q T C J]
    (fuel : Nat) (s : ThreadPoolSt Q T C J) :
    ThreadPoolSt Q T C J × List (WorkerEvent T) × List (Task T C J) :=
  Worker.runLoop fuel none s

/-- `ThreadPool::execute(gid, job)`: create a context via the factory (the
caller supplies the created context here), wrap everything into a task with id
unset, send it on the hand-off channel, and increment the live-task counter.
`cvar.notify_one()` has no state effect in the sequential model. -/
def ThreadPool.execute {Q T C J : Type} (gid : T) (job : J) (ctx : C)
    (s : ThreadPoolSt Q T C J) : ThreadPoolSt Q T C J :=
  { pool := { s.pool with jobs := s.pool.jobs ++ [Task.new gid job ctx] },
    task_count := incWrap s.task_count }

/-- `ThreadPool::get_task_count()`: load the atomic counter. -/
def ThreadPool.get_task_count {Q T C J : Type} (s : ThreadPoolSt Q T C J) : Nat :=
  s.task_count

/-- The message written for one failed join:
`write!(err_msg, "Failed to join thread with err: {:?};", e)`, with `e`
already rendered to its debug string. -/
def fmtJoinErr (e : String) : String :=
  "Failed to join thread with err: " ++ e ++ ";"

/-- `ThreadPool::stop()`: set the stop flag under the lock and wake everyone,
then join every worker thread, appending a message to `err_msg` for each
failed join; return `Err(err_msg)` when any join failed, `Ok(())` otherwise.
`joins` carries the OS-level outcome of each thread's join (`none` = clean,
`some e` = failed with debug string `e`), one entry per spawned thread. -/
def ThreadPool.stop {Q T C J : Type} (joins : List (Option String))
    (s : ThreadPoolSt Q T C J) : Except String Unit × ThreadPoolSt Q T C J :=
  let s1 : ThreadPoolSt Q T C J := { s with pool := s.pool.stopPool }
  let err_msg := joins.foldl
    (fun acc j =>
      match j with
      | some e => acc ++ fmtJoinErr e
      | none => acc) ""
  if err_msg.isEmpty then (Except.ok (), s1) else (Except.error err_msg, s1)

/-- Push a whole list of tasks into a `FifoQueue`, in list order (driver for
the round-trip property; mirrors the push loop of the `test_fifo_queue`
scenario). -/
def FifoQueue.pushAll {T C J : Type} (q : FifoQueue T C J) (ts : List (Task T C J)) :
    FifoQueue T C J :=
  ts.foldl FifoQueue.push q

/-- Pop `n` times from a `FifoQueue`, collecting the returned tasks in order;
stops early if a pop comes back empty. -/
def FifoQueue.popN {T C J : Type} : Nat → FifoQueue T C J → List (Task T C J) × FifoQueue T C J
  | 0, q => ([], q)
  | n + 1, q =>
    match FifoQueue.pop q with
    | (none, q1) => ([], q1)
    | (some t, q1) =>
      let r := FifoQueue.popN n q1
      (t :: r.1, r.2)

/-- The ten tasks of the `test_fifo_queue` scenario: ids `0..9`, all in group
`0`, with trivial job and context. -/
def sampleTasks : List (Task Nat Unit Unit) :=
  (List.range 10).map (fun i => { id := i, gid := 0, task := (), ctx := () })

/-- Spec-side description of the drain: the tasks of a list stamped with
consecutive ids starting at `next` (wrapping as `u64`), in list order.  The
theorems relate `fillQueue` (embedded from the code) to this description. -/
def stampTasks {T C J : Type} : Nat → List (Task T C J) → List (Task T C J)
  | _, [] => []
  | next, t :: rest => { t with id := next } :: stampTasks ((next + 1) % u64Lim) rest

/-!  Theorems. -/

theorem fifo_push_items {T C J : Type} (q : FifoQueue T C J) (t : Task T C J) :
    (q.push t).queue.items = q.queue.items ++ [t] := rfl

theorem fifo_pushAll_items {T C J : Type} (ts : List (Task T C J)) :
    ∀ q : FifoQueue T C J, (q.pushAll ts).queue.items = q.queue.items ++ ts := by
  induction ts with
  | nil => intro q; simp [FifoQueue.pushAll]
  | cons t rest ih =>
    intro q
    simp [FifoQueue.pushAll] at ih ⊢
    rw [ih, fifo_push_items, List.append_assoc]
    rfl

theorem fifo_pop_fst {T C J : Type} (q : FifoQueue T C J) :
    (FifoQueue.pop q).1 = q.queue.items.head? := by
  obtain ⟨⟨items, cap⟩⟩ := q
  cases items <;> simp [FifoQueue.pop, VecDeque.pop_front] <;> split <;> rfl

theorem fifo_pop_snd_items {T C J : Type} (q : FifoQueue T C J) :
    (FifoQueue.pop q).2.queue.items = q.queue.items.tail := by
  obtain ⟨⟨items, cap⟩⟩ := q
  cases items <;> simp [FifoQueue.pop, VecDeque.pop_front, VecDeque.is_empty] <;>
    split <;> simp_all [VecDeque.withCapacity, List.isEmpty_iff]

theorem fifo_popN_of_items {T C J : Type} :
    ∀ (l : List (Task T C J)) (q : FifoQueue T C J), q.queue.items = l →
      (FifoQueue.popN l.length q).1 = l := by
  intro l
  induction l with
  | nil => intro q _; rfl
  | cons t rest ih =>
    intro q h
    have h1 : (FifoQueue.pop q).1 = some t := by rw [fifo_pop_fst, h]; rfl
    have h2 : (FifoQueue.pop q).2.queue.items = rest := by rw [fifo_pop_snd_items, h]; rfl
    rcases hp : FifoQueue.pop q with ⟨o, q1⟩
    rw [hp] at h1 h2
    simp only at h1 h2
    subst h1
    simp only [List.length_cons, FifoQueue.popN, hp]
    simpa using ih q1 h2

/-- Claim C4: popping from the default FIFO queue returns tasks in exactly
arrival (push) order — for every sequence of pushed tasks, popping them all
yields the same sequence; in particular pushing tasks with ids `0..9` and
popping ten times yields ids `0, 1, ..., 9` in that order. -/
theorem fifo_queue_arrival_order :
    (∀ (T C J : Type) (ts : List (Task T C J)),
      (FifoQueue.popN ts.length (FifoQueue.pushAll FifoQueue.new ts)).1 = ts) ∧
    (FifoQueue.popN 10 (FifoQueue.pushAll FifoQueue.new sampleTasks)).1.map
        (fun t => t.id) = [0, 1, 2, 3, 4, 5, 6, 7, 8, 9] := by
  have key : ∀ (T C J : Type) (ts : List (Task T C J)),
      (FifoQueue.popN ts.length (FifoQueue.pushAll FifoQueue.new ts)).1 = ts := by
    intro T C J ts
    refine fifo_popN_of_items ts _ ?_
    rw [fifo_pushAll_items]
    simp [FifoQueue.new, VecDeque.withCapacity]
  refine ⟨key, ?_⟩
  have h10 : (10 : Nat) = sampleTasks.length := by rfl
  rw [h10, key]
  rfl

/-- Claim C8: `Ord for Task` compares ids in descending order: `a.cmp b` is
`gt` exactly when `a.id < b.id` (so the task with the smaller id is the
maximum of a max-first priority structure and is dequeued first), `lt`
exactly when `b.id < a.id`, and `eq` exactly when the ids are equal. -/
theorem task_ord_desc_by_id {T C J : Type} (a b : Task T C J) :
    (Task.cmp a b = Ordering.gt ↔ a.id < b.id) ∧
    (Task.cmp a b = Ordering.lt ↔ b.id < a.id) ∧
    (Task.cmp a b = Ordering.eq ↔ a.id = b.id) := by
  unfold Task.cmp
  refine ⟨?_, ?_, ?_⟩ <;>
    cases h : compare a.id b.id <;>
      simp_all [Ordering.swap, Nat.compare_eq_lt, Nat.compare_eq_gt, Nat.compare_eq_eq] <;>
      omega

/-- Claim C10: `PartialEq for Task` is determined solely by the id field —
two tasks are equal exactly when their ids are equal, whatever their group
ids, job closures or contexts — and any two freshly constructed tasks
(`Task::new` leaves `id = 0`) compare equal. -/
theorem task_eq_by_id_only {T C J : Type} :
    (∀ a b : Task T C J, Task.beq a b = true ↔ a.id = b.id) ∧
    (∀ (g₁ g₂ : T) (j₁ j₂ : J) (c₁ c₂ : C),
      Task.beq (Task.new g₁ j₁ c₁) (Task.new g₂ j₂ c₂) = true) := by
  have key : ∀ a b : Task T C J, Task.beq a b = true ↔ a.id = b.id := by
    intro a b
    unfold Task.beq Task.cmp
    rcases Nat.lt_trichotomy a.id b.id with h | h | h
    · rw [Nat.compare_eq_lt.mpr h]
      exact iff_of_false (by decide) (Nat.ne_of_lt h)
    · rw [h, Nat.compare_eq_eq.mpr rfl]
      exact iff_of_true (by decide) rfl
    · rw [Nat.compare_eq_gt.mpr h]
      exact iff_of_false (by decide) (Nat.ne_of_gt h)
  exact ⟨key, fun g₁ g₂ j₁ j₂ c₁ c₂ => (key _ _).mpr rfl⟩

/-- Claim C7: `FifoQueue::pop` removes and returns the front element (the
returned element never depends on the shrink); it resets the backing storage
to the default capacity exactly when the queue is empty after the removal and
its capacity exceeds `QUEUE_MAX_CAPACITY = 8 * 1000`, and leaves the backing
storage unchanged otherwise. -/
theorem fifo_pop_shrinks_iff {T C J : Type} (q : FifoQueue T C J) :
    QUEUE_MAX_CAPACITY = 8 * 1000 ∧
    (FifoQueue.pop q).1 = q.queue.items.head? ∧
    (FifoQueue.pop q).2.queue =
      (if q.queue.items.tail.isEmpty ∧ QUEUE_MAX_CAPACITY < q.queue.cap then
        VecDeque.withCapacity DEFAULT_QUEUE_CAPACITY
      else
        { items := q.queue.items.tail, cap := q.queue.cap }) := by
  obtain ⟨⟨items, cap⟩⟩ := q
  refine ⟨rfl, ?_, ?_⟩ <;>
  · cases items <;>
      simp [FifoQueue.pop, VecDeque.pop_front, VecDeque.is_empty, VecDeque.capacity] <;>
      split <;>
      simp_all [List.isEmpty_iff] <;>
      (rw [if_neg]; rintro ⟨he, hc⟩; simp_all; omega)

theorem fillQueue_eq_stamp {Q T C J : Type} [ScheduleQueue Q T C J] :
    ∀ (l : List (Task T C J)) (next : Nat) (q : Q), next < u64Lim →
      fillQueue next q l =
        ((next + l.length) % u64Lim,
         (stampTasks next l).foldl (fun a t => ScheduleQueue.push t a) q) := by
  intro l
  induction l with
  | nil =>
    intro next q hn
    simp [fillQueue, stampTasks, Nat.mod_eq_of_lt hn]
  | cons t rest ih =>
    intro next q hn
    have hn1 : (next + 1) % u64Lim < u64Lim :=
      Nat.mod_lt _ (by simp [u64Lim])
    rw [fillQueue, ih ((next + 1) % u64Lim) _ hn1]
    refine congrArg₂ Prod.mk ?_ ?_
    · rw [Nat.mod_add_mod]
      simp only [List.length_cons]
      congr 1
      omega
    · rfl

theorem stampTasks_ids {T C J : Type} :
    ∀ (l : List (Task T C J)) (next : Nat), next + l.length ≤ u64Lim →
      (stampTasks next l).map Task.id = List.range' next l.length := by
  intro l
  induction l with
  | nil => intro next _; rfl
  | cons t rest ih =>
    intro next h
    rw [stampTasks, List.map_cons]
    simp only [List.length_cons]
    rw [List.range'_succ]
    refine congrArg₂ List.cons rfl ?_
    cases rest with
    | nil => rfl
    | cons u us =>
      have hn1 : (next + 1) % u64Lim = next + 1 := by
        apply Nat.mod_eq_of_lt
        simp only [List.length_cons] at h
        omega
      rw [hn1]
      apply ih
      simp only [List.length_cons] at h ⊢
      omega

/-- Claim C1: `TaskPool::pop_task` tries the scheduling queue first — a
successful pop is returned at once, without touching the hand-off channel; only
when that pop returns nothing are all currently-available channel items drained
into the queue, each drained task stamped with `next_task_id` (which is then
incremented), so the ids assigned in drain order are consecutive and strictly
increasing; after the drain the pop is retried exactly once and its result
returned.  The hypotheses say the `u64` id counter does not overflow during the
drain (it cannot: it would take `2^64` submissions). -/
theorem pop_task_two_phase {Q T C J : Type} [ScheduleQueue Q T C J]
    (p : TaskPool Q T C J) (h₁ : p.next_task_id < u64Lim)
    (h₂ : p.next_task_id + p.jobs.length ≤ u64Lim) :
    (∀ (t : Task T C J) (q : Q),
      ScheduleQueue.pop (T := T) (C := C) (J := J) p.task_queue = (some t, q) →
      p.pop_task = (some t, { p with task_queue := q })) ∧
    (∀ q : Q,
      ScheduleQueue.pop (T := T) (C := C) (J := J) p.task_queue = (none, q) →
      (stampTasks p.next_task_id p.jobs).map Task.id =
        List.range' p.next_task_id p.jobs.length ∧
      ((stampTasks p.next_task_id p.jobs).map Task.id).Pairwise (· < ·) ∧
      p.pop_task =
        ((ScheduleQueue.pop (T := T) (C := C) (J := J)
            ((stampTasks p.next_task_id p.jobs).foldl
              (fun a t => ScheduleQueue.push t a) q)).1,
         { next_task_id := (p.next_task_id + p.jobs.length) % u64Lim,
           task_queue := (ScheduleQueue.pop (T := T) (C := C) (J := J)
            ((stampTasks p.next_task_id p.jobs).foldl
              (fun a t => ScheduleQueue.push t a) q)).2,
           stop := p.stop, jobs := [] })) := by
  constructor
  · intro t q hpop
    rw [TaskPool.pop_task, hpop]
  · intro q hpop
    refine ⟨stampTasks_ids p.jobs p.next_task_id h₂, ?_, ?_⟩
    · rw [stampTasks_ids p.jobs p.next_task_id h₂]
      exact List.pairwise_lt_range' _ _
    · rw [TaskPool.pop_task, hpop]
      simp only [TaskPool.try_fill_queue,
        fillQueue_eq_stamp p.jobs p.next_task_id q h₁]

/-- A concrete pool for exercising `pop_task`: id counter at 5, empty FIFO
queue, two tasks waiting in the hand-off channel. -/
def witPool : TaskPool (FifoQueue Nat Unit Unit) Nat Unit Unit :=
  { next_task_id := 5, task_queue := FifoQueue.new, stop := false,
    jobs := [Task.new 7 () (), Task.new 8 () ()] }

theorem pop_task_two_phase_witness :
    (witPool.next_task_id < u64Lim ∧
     witPool.next_task_id + witPool.jobs.length ≤ u64Lim) ∧
    ((∀ (t : Task Nat Unit Unit) (q : FifoQueue Nat Unit Unit),
      ScheduleQueue.pop (T := Nat) (C := Unit) (J := Unit) witPool.task_queue = (some t, q) →
      witPool.pop_task = (some t, { witPool with task_queue := q })) ∧
    (∀ q : FifoQueue Nat Unit Unit,
      ScheduleQueue.pop (T := Nat) (C := Unit) (J := Unit) witPool.task_queue = (none, q) →
      (stampTasks witPool.next_task_id witPool.jobs).map Task.id =
        List.range' witPool.next_task_id witPool.jobs.length ∧
      ((stampTasks witPool.next_task_id witPool.jobs).map Task.id).Pairwise (· < ·) ∧
      witPool.pop_task =
        ((ScheduleQueue.pop (T := Nat) (C := Unit) (J := Unit)
            ((stampTasks witPool.next_task_id witPool.jobs).foldl
              (fun a t => ScheduleQueue.push t a) q)).1,
         { next_task_id := (witPool.next_task_id + witPool.jobs.length) % u64Lim,
           task_queue := (ScheduleQueue.pop (T := Nat) (C := Unit) (J := Unit)
            ((stampTasks witPool.next_task_id witPool.jobs).foldl
              (fun a t => ScheduleQueue.push t a) q)).2,
           stop := witPool.stop, jobs := [] }))) :=
  ⟨⟨by decide, by decide⟩, pop_task_two_phase witPool (by decide) (by decide)⟩

/-- The under-lock trace of one `get_next_task` call, fully characterized:
the previous group's finish hook fires first (if any), then — unless the pool
is stopped — one pop attempt, then the started hook exactly for a
successfully popped task. -/
theorem get_next_task_events {Q T C J : Type} [ScheduleQueue Q T C J]
    (prev : Option T) (p : TaskPool Q T C J) :
    (Worker.get_next_task prev p).2.2 =
      (match prev with
       | some g => [WorkerEvent.finished g]
       | none => []) ++
      (match (Worker.get_next_task prev p).1 with
       | GetNextResult.stopped => []
       | GetNextResult.got t => [WorkerEvent.popAttempt, WorkerEvent.started t.gid]
       | GetNextResult.blocked => [WorkerEvent.popAttempt]) := by
  cases prev <;>
    · rw [Worker.get_next_task]
      dsimp only
      split
      · rfl
      · split <;> rfl

/-- The result pool of `get_next_task`, per outcome: the finish hook is
applied first to the pool (when a previous group is given), and on a
successful pop the started hook is applied to the popped pool — both inside
the same lock acquisition. -/
theorem get_next_task_state {Q T C J : Type} [ScheduleQueue Q T C J]
    (prev : Option T) (p : TaskPool Q T C J) :
    (let p0 := match prev with
               | some g => p.on_task_finished g
               | none => p
     (p0.stop = true →
        Worker.get_next_task prev p = (GetNextResult.stopped, p0,
          (match prev with
           | some g => [WorkerEvent.finished g]
           | none => []))) ∧
     (p0.stop = false →
        ∀ (t : Task T C J) (p1 : TaskPool Q T C J), p0.pop_task = (some t, p1) →
          Worker.get_next_task prev p =
            (GetNextResult.got t, p1.on_task_started t.gid,
             (match prev with
              | some g => [WorkerEvent.finished g]
              | none => []) ++ [WorkerEvent.popAttempt, WorkerEvent.started t.gid])) ∧
     (p0.stop = false →
        ∀ p1 : TaskPool Q T C J, p0.pop_task = (none, p1) →
          Worker.get_next_task prev p =
            (GetNextResult.blocked, p1,
             (match prev with
              | some g => [WorkerEvent.finished g]
              | none => []) ++ [WorkerEvent.popAttempt]))) := by
  cases prev <;>
    · dsimp only
      refine ⟨?_, ?_, ?_⟩
      · intro hs
        rw [Worker.get_next_task]
        simp [TaskPool.is_stopped, hs]
      · intro hs t p1 hp
        rw [Worker.get_next_task]
        simp [TaskPool.is_stopped, hs, hp]
      · intro hs p1 hp
        rw [Worker.get_next_task]
        simp [TaskPool.is_stopped, hs, hp]

/-- Claim C2: in every `get_next_task` call that is given a previous task's
group id, the `on_task_finished` hook fires for that group exactly once and as
the very first under-lock event — before any pop attempt; and for every task
the call returns, the `on_task_started` hook fires for that task's group
exactly once, as the last under-lock event before the call returns,
immediately after the successful pop attempt.  The event list is by
construction the sequence of actions performed while the pool lock is held. -/
theorem get_next_task_hook_discipline {Q T C J : Type} [ScheduleQueue Q T C J]
    (prev : Option T) (p : TaskPool Q T C J) :
    (∀ g, prev = some g →
      ∃ rest, (Worker.get_next_task prev p).2.2 = WorkerEvent.finished g :: rest ∧
        WorkerEvent.finished g ∉ rest) ∧
    (∀ t : Task T C J, (Worker.get_next_task prev p).1 = GetNextResult.got t →
      ∃ pre, (Worker.get_next_task prev p).2.2 = pre ++ [WorkerEvent.started t.gid] ∧
        WorkerEvent.started t.gid ∉ pre ∧
        pre.getLast? = some WorkerEvent.popAttempt) := by
  have hev := get_next_task_events prev p
  constructor
  · rintro g rfl
    rw [hev]
    cases hr : (Worker.get_next_task (some g) p).1 with
    | stopped => exact ⟨[], by simp, by simp⟩
    | got t =>
      exact ⟨[WorkerEvent.popAttempt, WorkerEvent.started t.gid], by simp, by simp⟩
    | blocked => exact ⟨[WorkerEvent.popAttempt], by simp, by simp⟩
  · intro t ht
    rw [hev, ht]
    cases prev with
    | none => exact ⟨[WorkerEvent.popAttempt], by simp, by simp, rfl⟩
    | some g =>
      exact ⟨[WorkerEvent.finished g, WorkerEvent.popAttempt], by simp, by simp, rfl⟩

/-- A pool whose scheduling queue holds one already-stamped task, for
exercising `get_next_task` concretely. -/
def pool2 : TaskPool (FifoQueue Nat Unit Unit) Nat Unit Unit :=
  { next_task_id := 5,
    task_queue := FifoQueue.new.push { id := 4, gid := 9, task := (), ctx := () },
    stop := false, jobs := [] }

/-- The task sitting in `pool2`'s queue. -/
def witTask2 : Task Nat Unit Unit := { id := 4, gid := 9, task := (), ctx := () }

theorem get_next_task_hook_discipline_witness :
    ((some 3 : Option Nat) = some 3 ∧
     ∃ rest, (Worker.get_next_task (some 3) pool2).2.2 = WorkerEvent.finished 3 :: rest ∧
       WorkerEvent.finished 3 ∉ rest) ∧
    ((Worker.get_next_task (some 3) pool2).1 = GetNextResult.got witTask2 ∧
     ∃ pre, (Worker.get_next_task (some 3) pool2).2.2 =
         pre ++ [WorkerEvent.started witTask2.gid] ∧
       WorkerEvent.started witTask2.gid ∉ pre ∧
       pre.getLast? = some WorkerEvent.popAttempt) :=
  ⟨⟨rfl, (get_next_task_hook_discipline (some 3) pool2).1 3 rfl⟩,
   ⟨rfl, (get_next_task_hook_discipline (some 3) pool2).2 witTask2 rfl⟩⟩

/-- Claim C3: `TaskPool::stop` only sets the stop flag — the channel and the
queue are untouched — and a worker observing the flag in `get_next_task`
returns `None` without attempting a pop, so a worker loop run against a
stopped pool executes no task at all: everything still queued (`M` tasks in
`jobs` plus whatever the scheduling queue holds) stays unexecuted and the
pool state is unchanged. -/
theorem stop_prevents_any_execution {Q T C J : Type} [ScheduleQueue Q T C J]
    (p : TaskPool Q T C J) (count fuel : Nat) (prev : Option T) :
    p.stopPool.jobs = p.jobs ∧
    p.stopPool.task_queue = p.task_queue ∧
    (Worker.get_next_task prev p.stopPool).1 = GetNextResult.stopped ∧
    WorkerEvent.popAttempt ∉ (Worker.get_next_task prev p.stopPool).2.2 ∧
    Worker.run fuel { pool := p.stopPool, task_count := count } =
      ({ pool := p.stopPool, task_count := count }, [], []) := by
  refine ⟨rfl, rfl, ?_, ?_, ?_⟩
  · cases prev <;>
      · rw [Worker.get_next_task]
        simp [TaskPool.stopPool, TaskPool.is_stopped, TaskPool.on_task_finished]
  · cases prev <;>
      · rw [Worker.get_next_task]
        simp [TaskPool.stopPool, TaskPool.is_stopped, TaskPool.on_task_finished]
  · cases fuel <;> rfl

/-- Recognizer for the outside-the-lock events of one task execution. -/
def isRunEvent {T : Type} : WorkerEvent T → Bool
  | WorkerEvent.ctxStart _ => true
  | WorkerEvent.jobRun _ => true
  | WorkerEvent.ctxComplete _ => true
  | WorkerEvent.decCount _ => true
  | _ => false

/-- The event block `Worker::run` produces for one executed task:
`ctx.on_start()`, the job body, `ctx.on_complete()`, counter decrement. -/
def runBlock {T : Type} (id : Nat) : List (WorkerEvent T) :=
  [WorkerEvent.ctxStart id, WorkerEvent.jobRun id,
   WorkerEvent.ctxComplete id, WorkerEvent.decCount id]

theorem get_next_task_no_run_events {Q T C J : Type} [ScheduleQueue Q T C J]
    (prev : Option T) (p : TaskPool Q T C J) :
    ((Worker.get_next_task prev p).2.2).filter isRunEvent = [] := by
  rw [get_next_task_events]
  cases prev <;> cases (Worker.get_next_task _ p).1 <;> rfl

theorem runLoop_run_events {Q T C J : Type} [ScheduleQueue Q T C J] :
    ∀ (fuel : Nat) (prev : Option T) (s : ThreadPoolSt Q T C J),
      (Worker.runLoop fuel prev s).2.1.filter isRunEvent =
        (Worker.runLoop fuel prev s).2.2.flatMap (fun t => runBlock t.id) := by
  intro fuel
  induction fuel with
  | zero => intro prev s; rfl
  | succ n ih =>
    intro prev s
    rw [Worker.runLoop]
    rcases hg : Worker.get_next_task prev s.pool with ⟨r, p1, ev⟩
    have hev : ev.filter isRunEvent = [] := by
      have := get_next_task_no_run_events prev s.pool
      rw [hg] at this
      exact this
    cases r with
    | stopped => simpa using hev
    | blocked => simpa using hev
    | got t =>
      simp only [List.flatMap_cons, List.filter_append, hev, List.nil_append]
      rw [ih]
      rfl

theorem runLoop_block_infix {Q T C J : Type} [ScheduleQueue Q T C J] :
    ∀ (fuel : Nat) (prev : Option T) (s : ThreadPoolSt Q T C J) (t : Task T C J),
      t ∈ (Worker.runLoop fuel prev s).2.2 →
        runBlock t.id <:+: (Worker.runLoop fuel prev s).2.1 := by
  intro fuel
  induction fuel with
  | zero => intro prev s t h; simp [Worker.runLoop] at h
  | succ n ih =>
    intro prev s t h
    rw [Worker.runLoop] at h ⊢
    rcases hg : Worker.get_next_task prev s.pool with ⟨r, p1, ev⟩
    rw [hg] at h
    cases r with
    | stopped => simp at h
    | blocked => simp at h
    | got u =>
      dsimp only
      simp only [List.mem_cons] at h
      rcases h with rfl | h
      · exact ⟨ev,
          (Worker.runLoop n (some t.gid)
            { pool := p1, task_count := decWrap s.task_count }).2.1,
          by simp [runBlock]⟩
      · have hin := ih (some u.gid) { pool := p1, task_count := decWrap s.task_count } t h
        exact hin.trans (List.suffix_append _ _).isInfix

/-- Claim C5: for every task a worker executes, the context's `on_start` hook
runs exactly once immediately before the job body, `on_complete` runs exactly
once immediately after the job body returns, and the live-task counter is
decremented only after `on_complete`: the run-event part of the worker trace
is exactly one `runBlock` (`on_start`, job, `on_complete`, decrement — in that
order) per executed task, in execution order, and each task's block is a
contiguous segment of the full trace. -/
theorem run_hooks_bracket_each_job {Q T C J : Type} [ScheduleQueue Q T C J]
    (fuel : Nat) (s : ThreadPoolSt Q T C J) :
    ((Worker.run fuel s).2.1.filter isRunEvent =
      (Worker.run fuel s).2.2.flatMap (fun t => runBlock t.id)) ∧
    (∀ t : Task T C J, t ∈ (Worker.run fuel s).2.2 →
      runBlock t.id <:+: (Worker.run fuel s).2.1) :=
  ⟨runLoop_run_events fuel none s, fun t h => runLoop_block_infix fuel none s t h⟩

/-- Concrete one-task system exercising the worker loop. -/
def sysW : ThreadPoolSt (FifoQueue Nat Unit Unit) Nat Unit Unit :=
  { pool := pool2, task_count := 1 }

theorem run_hooks_bracket_each_job_witness :
    (witTask2 ∈ (Worker.run 2 sysW).2.2) ∧
    runBlock witTask2.id <:+: (Worker.run 2 sysW).2.1 :=
  have hmem : witTask2 ∈ (Worker.run 2 sysW).2.2 := by
    rw [show (Worker.run 2 sysW).2.2 = [witTask2] from rfl]
    exact List.mem_singleton.mpr rfl
  ⟨hmem, (run_hooks_bracket_each_job 2 sysW).2 witTask2 hmem⟩

/-- Spec-side description of the aggregated error: the concatenation of the
per-failure messages, in join order. -/
def concatMsgs (msgs : List String) : String :=
  msgs.foldr (fun a b => a ++ b) ""

theorem stop_foldl_msgs (joins : List (Option String)) :
    ∀ acc : String,
      joins.foldl
        (fun acc j =>
          match j with
          | some e => acc ++ fmtJoinErr e
          | none => acc) acc =
      acc ++ concatMsgs ((joins.filterMap id).map fmtJoinErr) := by
  induction joins with
  | nil => intro acc; simp [concatMsgs, String.append_empty]
  | cons j rest ih =>
    intro acc
    cases j with
    | none => simpa [concatMsgs] using ih acc
    | some e =>
      simp only [List.foldl_cons, List.filterMap_cons, id, List.map_cons]
      rw [ih (acc ++ fmtJoinErr e)]
      rw [String.append_assoc]
      rfl

/-- Claim C6: `ThreadPool::stop` returns `Ok` exactly when every worker
thread's join succeeded; otherwise it returns a single `Err` whose message is
the concatenation of one formatted message per failed join, in join order —
never empty, and never just the first failure.  (`joins` lists the join
outcome of every spawned worker thread; the stop flag is set either way.) -/
theorem stop_aggregates_join_failures {Q T C J : Type}
    (joins : List (Option String)) (s : ThreadPoolSt Q T C J) :
    ((ThreadPool.stop joins s).1 = Except.ok () ↔ ∀ j ∈ joins, j = none) ∧
    (∀ e, (ThreadPool.stop joins s).1 = Except.error e →
      e = concatMsgs ((joins.filterMap id).map fmtJoinErr) ∧ e ≠ "") ∧
    (joins.filterMap id ≠ [] →
      (ThreadPool.stop joins s).1 =
        Except.error (concatMsgs ((joins.filterMap id).map fmtJoinErr))) ∧
    (ThreadPool.stop joins s).2.pool.stop = true := by
  have hfold := stop_foldl_msgs joins ""
  rw [String.empty_append] at hfold
  have hallnone : joins.filterMap id = [] ↔ ∀ j ∈ joins, j = none := by
    rw [List.filterMap_eq_nil_iff]
    constructor
    · intro h j hj; exact h j hj
    · intro h j hj; exact h j hj
  rcases hfails : joins.filterMap id with _ | ⟨e₀, es⟩
  · rw [hfails] at hfold
    have hstop : ThreadPool.stop joins s =
        (Except.ok (), { s with pool := s.pool.stopPool }) := by
      rw [ThreadPool.stop, hfold]
      rfl
    refine ⟨?_, ?_, ?_, ?_⟩
    · rw [hstop]
      exact iff_of_true rfl (hallnone.mp hfails)
    · intro e he; rw [hstop] at he; cases he
    · intro hne; exact absurd rfl hne
    · rw [hstop]; rfl
  · rw [hfails] at hfold
    have hlen0 : 0 < (concatMsgs ((e₀ :: es).map fmtJoinErr)).length := by
      have hcons : concatMsgs ((e₀ :: es).map fmtJoinErr) =
          fmtJoinErr e₀ ++ concatMsgs (es.map fmtJoinErr) := rfl
      rw [hcons, String.length_append, fmtJoinErr, String.length_append,
        String.length_append]
      have hp : (0:Nat) < ("Failed to join thread with err: " : String).length := by
        decide
      omega
    have hne : concatMsgs ((e₀ :: es).map fmtJoinErr) ≠ "" := by
      intro h
      rw [h] at hlen0
      exact absurd hlen0 (by decide)
    have hempty : (concatMsgs ((e₀ :: es).map fmtJoinErr)).isEmpty = false := by
      cases hb : (concatMsgs ((e₀ :: es).map fmtJoinErr)).isEmpty
      · rfl
      · exact absurd ((String.isEmpty_iff _).mp hb) hne
    have hstop : ThreadPool.stop joins s =
        (Except.error (concatMsgs ((e₀ :: es).map fmtJoinErr)),
         { s with pool := s.pool.stopPool }) := by
      rw [ThreadPool.stop, hfold]
      simp only [hempty]
      rfl
    refine ⟨?_, ?_, ?_, ?_⟩
    · rw [hstop]
      refine iff_of_false (by simp) ?_
      intro hall
      have hnil := hallnone.mpr hall
      rw [hfails] at hnil
      exact List.cons_ne_nil e₀ es hnil
    · intro e he
      rw [hstop] at he
      cases he
      exact ⟨rfl, hne⟩
    · intro _
      rw [hstop]
    · rw [hstop]; rfl

/-- Join outcomes with two failed joins, for exercising `ThreadPool.stop`. -/
def joinsW : List (Option String) := [some "boom", none, some "crash"]

theorem stop_aggregates_join_failures_witness :
    (joinsW.filterMap id ≠ []) ∧
    (ThreadPool.stop joinsW sysW).1 =
      Except.error (concatMsgs ((joinsW.filterMap id).map fmtJoinErr)) :=
  ⟨by decide, by
    have h := (stop_aggregates_join_failures joinsW sysW).2.2.1 (by decide)
    simpa [joinsW] using h⟩

/-- `execute` a whole list of submissions (group id, job, created context), in
order — the shape of the `test_get_task_count` scenario. -/
def submitAll {Q T C J : Type} (subs : List (T × J × C)) (s : ThreadPoolSt Q T C J) :
    ThreadPoolSt Q T C J :=
  subs.foldl (fun s g => ThreadPool.execute g.1 g.2.1 g.2.2 s) s

theorem submitAll_spec {Q T C J : Type} :
    ∀ (subs : List (T × J × C)) (s : ThreadPoolSt Q T C J), s.task_count < u64Lim →
      submitAll subs s =
        { pool := { s.pool with
            jobs := s.pool.jobs ++ subs.map (fun g => Task.new g.1 g.2.1 g.2.2) },
          task_count := (s.task_count + subs.length) % u64Lim } := by
  intro subs
  induction subs with
  | nil =>
    intro s hs
    simp [submitAll, Nat.mod_eq_of_lt hs]
  | cons g rest ih =>
    intro s hs
    have hstep : submitAll (g :: rest) s =
        submitAll rest (ThreadPool.execute g.1 g.2.1 g.2.2 s) := rfl
    rw [hstep, ih _ (Nat.mod_lt _ (by simp [u64Lim]))]
    simp only [ThreadPool.execute, incWrap]
    rw [Nat.mod_add_mod]
    simp only [List.map_cons, List.length_cons, List.append_assoc,
      List.singleton_append]
    rw [Nat.add_assoc, Nat.add_comm 1 rest.length]

theorem decWrap_succ (n : Nat) (h : n + 1 < u64Lim) : decWrap (n + 1) = n := by
  have hM : 1 ≤ u64Lim := by simp [u64Lim]
  have heq : n + 1 + (u64Lim - 1) = n + u64Lim := by omega
  rw [decWrap, heq, Nat.add_mod_right]
  exact Nat.mod_eq_of_lt (by omega)

theorem fifo_pop_task_some {T C J : Type}
    (p : TaskPool (FifoQueue T C J) T C J) (t : Task T C J) (q₁ : FifoQueue T C J)
    (h : FifoQueue.pop p.task_queue = (some t, q₁)) :
    p.pop_task = (some t, { p with task_queue := q₁ }) := by
  have h' : ScheduleQueue.pop (T := T) (C := C) (J := J) p.task_queue = (some t, q₁) := h
  rw [TaskPool.pop_task, h']

theorem fifo_pop_task_none {T C J : Type}
    (p : TaskPool (FifoQueue T C J) T C J) (q₁ : FifoQueue T C J)
    (h : FifoQueue.pop p.task_queue = (none, q₁)) (hjobs : p.jobs = []) :
    p.pop_task =
      ((FifoQueue.pop q₁).1,
       { p with task_queue := (FifoQueue.pop q₁).2, jobs := [] }) := by
  have h' : ScheduleQueue.pop (T := T) (C := C) (J := J) p.task_queue = (none, q₁) := h
  rw [TaskPool.pop_task, h']
  simp only [TaskPool.try_fill_queue, hjobs, fillQueue]
  rfl

/-- A worker loop over a pool whose FIFO queue already holds `l` stamped tasks
and whose channel is empty executes exactly those `l` tasks in order and
decrements the live counter once per task, then blocks. -/
theorem runLoop_fifo_queue {T C J : Type} :
    ∀ (l : List (Task T C J)) (cap next c : Nat) (prev : Option T) (fuel : Nat),
      c + l.length < u64Lim → l.length + 1 ≤ fuel →
      ∃ (q' : FifoQueue T C J) (ev : List (WorkerEvent T)),
        Worker.runLoop fuel prev
          { pool := { next_task_id := next,
                      task_queue := FifoQueue.mk (VecDeque.mk l cap),
                      stop := false, jobs := [] },
            task_count := c + l.length } =
        ({ pool := { next_task_id := next, task_queue := q',
                     stop := false, jobs := [] },
           task_count := c }, ev, l) := by
  intro l
  induction l with
  | nil =>
    intro cap next c prev fuel hc hf
    rcases fuel with _ | m
    · omega
    · rcases hp : FifoQueue.pop (FifoQueue.mk (VecDeque.mk ([] : List (Task T C J)) cap))
        with ⟨o, q₁⟩
      have ho : o = none := by
        have hfst := fifo_pop_fst (FifoQueue.mk (VecDeque.mk ([] : List (Task T C J)) cap))
        rw [hp] at hfst
        simpa using hfst
      subst ho
      have hq₁ : q₁.queue.items = [] := by
        have hsnd :=
          fifo_pop_snd_items (FifoQueue.mk (VecDeque.mk ([] : List (Task T C J)) cap))
        rw [hp] at hsnd
        simpa using hsnd
      rcases hp2 : FifoQueue.pop q₁ with ⟨o2, q₂⟩
      have ho2 : o2 = none := by
        have hfst := fifo_pop_fst q₁
        rw [hp2, hq₁] at hfst
        simpa using hfst
      subst ho2
      have hpt := fifo_pop_task_none
        (⟨next, FifoQueue.mk (VecDeque.mk [] cap), false, []⟩ :
          TaskPool (FifoQueue T C J) T C J) q₁ hp rfl
      rw [hp2] at hpt
      cases prev with
      | none =>
        obtain ⟨_, _, h3⟩ := get_next_task_state (none : Option T)
          (⟨next, FifoQueue.mk (VecDeque.mk [] cap), false, []⟩ :
            TaskPool (FifoQueue T C J) T C J)
        have hgnt := h3 rfl _ hpt
        refine ⟨q₂, [WorkerEvent.popAttempt], ?_⟩
        rw [Worker.runLoop, hgnt]
        rfl
      | some g =>
        obtain ⟨_, _, h3⟩ := get_next_task_state (some g)
          (⟨next, FifoQueue.mk (VecDeque.mk [] cap), false, []⟩ :
            TaskPool (FifoQueue T C J) T C J)
        have hgnt := h3 rfl _ hpt
        refine ⟨q₂, [WorkerEvent.finished g, WorkerEvent.popAttempt], ?_⟩
        rw [Worker.runLoop, hgnt]
        rfl
  | cons t rest ih =>
    intro cap next c prev fuel hc hf
    rcases fuel with _ | m
    · simp only [List.length_cons] at hf
      omega
    · rcases hp : FifoQueue.pop (FifoQueue.mk (VecDeque.mk (t :: rest) cap))
        with ⟨o, q₁⟩
      have ho : o = some t := by
        have hfst := fifo_pop_fst (FifoQueue.mk (VecDeque.mk (t :: rest) cap))
        rw [hp] at hfst
        simpa using hfst
      subst ho
      have hqeq : q₁ = FifoQueue.mk (VecDeque.mk rest q₁.queue.cap) := by
        have hsnd := fifo_pop_snd_items (FifoQueue.mk (VecDeque.mk (t :: rest) cap))
        rw [hp] at hsnd
        obtain ⟨⟨items₁, cap₁⟩⟩ := q₁
        simp only [List.tail_cons] at hsnd ⊢
        rw [hsnd]
      rw [hqeq] at hp
      have hpt := fifo_pop_task_some
        (⟨next, FifoQueue.mk (VecDeque.mk (t :: rest) cap), false, []⟩ :
          TaskPool (FifoQueue T C J) T C J) t
        (FifoQueue.mk (VecDeque.mk rest q₁.queue.cap)) hp
      have hd : decWrap (c + (rest.length + 1)) = c + rest.length := by
        apply decWrap_succ
        simp only [List.length_cons] at hc
        show c + rest.length + 1 < u64Lim
        omega
      obtain ⟨q', ev', hrun⟩ := ih q₁.queue.cap next c (some t.gid) m
        (by simp only [List.length_cons] at hc
            show c + rest.length < u64Lim
            omega)
        (by simp only [List.length_cons] at hf
            show rest.length + 1 ≤ m
            omega)
      cases prev with
      | none =>
        obtain ⟨_, h2, _⟩ := get_next_task_state (none : Option T)
          (⟨next, FifoQueue.mk (VecDeque.mk (t :: rest) cap), false, []⟩ :
            TaskPool (FifoQueue T C J) T C J)
        have hgnt := h2 rfl t _ hpt
        refine ⟨q', [WorkerEvent.popAttempt, WorkerEvent.started t.gid] ++
          runBlock t.id ++ ev', ?_⟩
        rw [Worker.runLoop, hgnt]
        dsimp only [TaskPool.on_task_started, ScheduleQueue.on_task_started,
          fifoScheduleQueue, List.length_cons]
        rw [hd, hrun]
        rfl
      | some g =>
        obtain ⟨_, h2, _⟩ := get_next_task_state (some g)
          (⟨next, FifoQueue.mk (VecDeque.mk (t :: rest) cap), false, []⟩ :
            TaskPool (FifoQueue T C J) T C J)
        have hgnt := h2 rfl t _ hpt
        refine ⟨q', [WorkerEvent.finished g, WorkerEvent.popAttempt,
          WorkerEvent.started t.gid] ++ runBlock t.id ++ ev', ?_⟩
        rw [Worker.runLoop, hgnt]
        dsimp only [TaskPool.on_task_started, ScheduleQueue.on_task_started,
          fifoScheduleQueue, List.length_cons]
        rw [hd, hrun]
        rfl

theorem stampTasks_length {T C J : Type} :
    ∀ (l : List (Task T C J)) (next : Nat), (stampTasks next l).length = l.length := by
  intro l
  induction l with
  | nil => intro next; rfl
  | cons t rest ih =>
    intro next
    rw [stampTasks, List.length_cons, List.length_cons, ih]

theorem fifo_pop_task_jobs {T C J : Type}
    (p : TaskPool (FifoQueue T C J) T C J) (q₁ : FifoQueue T C J)
    (h : FifoQueue.pop p.task_queue = (none, q₁)) (hn : p.next_task_id < u64Lim) :
    p.pop_task =
      ((FifoQueue.pop (FifoQueue.pushAll q₁ (stampTasks p.next_task_id p.jobs))).1,
       ⟨(p.next_task_id + p.jobs.length) % u64Lim,
        (FifoQueue.pop (FifoQueue.pushAll q₁ (stampTasks p.next_task_id p.jobs))).2,
        p.stop, []⟩) := by
  have h' : ScheduleQueue.pop (T := T) (C := C) (J := J) p.task_queue = (none, q₁) := h
  rw [TaskPool.pop_task, h']
  dsimp only
  rw [TaskPool.try_fill_queue]
  dsimp only
  rw [fillQueue_eq_stamp p.jobs p.next_task_id q₁ hn]
  rfl

/-- A freshly built pool with `js` tasks already sent on the channel: a worker
with `js.length + 1` loop iterations executes exactly `js.length` tasks and
brings the live counter from `js.length` down to `0`. -/
theorem run_fresh_pool {T C J : Type} (js : List (Task T C J))
    (h : js.length < u64Lim) :
    (Worker.run (js.length + 1)
      { pool := (⟨0, FifoQueue.new, false, js⟩ : TaskPool (FifoQueue T C J) T C J),
        task_count := js.length }).2.2.length = js.length ∧
    ((Worker.run (js.length + 1)
      { pool := (⟨0, FifoQueue.new, false, js⟩ : TaskPool (FifoQueue T C J) T C J),
        task_count := js.length }).1).task_count = 0 := by
  cases js with
  | nil => exact ⟨rfl, rfl⟩
  | cons j rest =>
    have hM0 : (0:Nat) < u64Lim := by simp [u64Lim]
    have hstamp : stampTasks 0 (j :: rest) =
        { j with id := 0 } :: stampTasks (1 % u64Lim) rest := rfl
    have hpt : (⟨0, FifoQueue.new, false, j :: rest⟩ :
        TaskPool (FifoQueue T C J) T C J).pop_task =
        ((FifoQueue.pop (FifoQueue.pushAll FifoQueue.new (stampTasks 0 (j :: rest)))).1,
         ⟨(0 + (j :: rest).length) % u64Lim,
          (FifoQueue.pop (FifoQueue.pushAll FifoQueue.new (stampTasks 0 (j :: rest)))).2,
          false, []⟩) :=
      fifo_pop_task_jobs _ FifoQueue.new rfl hM0
    have hitems : (FifoQueue.pushAll FifoQueue.new
        (stampTasks 0 (j :: rest))).queue.items = stampTasks 0 (j :: rest) := by
      rw [fifo_pushAll_items]
      rfl
    rcases hq : FifoQueue.pop (FifoQueue.pushAll FifoQueue.new (stampTasks 0 (j :: rest)))
      with ⟨o, qd₂⟩
    have ho : o = some { j with id := 0 } := by
      have hfst := fifo_pop_fst (FifoQueue.pushAll FifoQueue.new (stampTasks 0 (j :: rest)))
      rw [hq, hitems, hstamp] at hfst
      simpa using hfst
    subst ho
    obtain ⟨⟨items₂, cap₂⟩⟩ := qd₂
    have hi₂ : items₂ = stampTasks (1 % u64Lim) rest := by
      have hsnd := fifo_pop_snd_items
        (FifoQueue.pushAll FifoQueue.new (stampTasks 0 (j :: rest)))
      rw [hq, hitems, hstamp] at hsnd
      simpa using hsnd
    subst hi₂
    rw [hq] at hpt
    have hpt2 : (⟨0, FifoQueue.new, false, j :: rest⟩ :
        TaskPool (FifoQueue T C J) T C J).pop_task =
        (some { j with id := 0 },
         ⟨(0 + (j :: rest).length) % u64Lim,
          FifoQueue.mk (VecDeque.mk (stampTasks (1 % u64Lim) rest) cap₂),
          false, []⟩) := hpt
    obtain ⟨_, h2, _⟩ := get_next_task_state (none : Option T)
      (⟨0, FifoQueue.new, false, j :: rest⟩ : TaskPool (FifoQueue T C J) T C J)
    have hgnt := h2 rfl _ _ hpt2
    have hd : decWrap ((j :: rest).length) = rest.length := by
      rw [List.length_cons]
      exact decWrap_succ rest.length (by rw [List.length_cons] at h; omega)
    obtain ⟨q', ev', hrun⟩ := runLoop_fifo_queue (stampTasks (1 % u64Lim) rest) cap₂
      ((0 + (j :: rest).length) % u64Lim) 0 (some j.gid) ((j :: rest).length)
      (by rw [stampTasks_length]
          show 0 + rest.length < u64Lim
          rw [List.length_cons] at h
          omega)
      (by rw [stampTasks_length, List.length_cons])
    have hzl : (0:Nat) + (stampTasks (1 % u64Lim) (rest : List (Task T C J))).length
        = rest.length := by
      rw [stampTasks_length]
      omega
    rw [hzl] at hrun
    constructor
    · rw [Worker.run, Worker.runLoop, hgnt]
      dsimp only [TaskPool.on_task_started, ScheduleQueue.on_task_started,
        fifoScheduleQueue]
      rw [hd, hrun]
      simp [stampTasks_length]
    · rw [Worker.run, Worker.runLoop, hgnt]
      dsimp only [TaskPool.on_task_started, ScheduleQueue.on_task_started,
        fifoScheduleQueue]
      rw [hd, hrun]

/-- Claim C9: `get_task_count()` returns the live-task counter, incremented by
one per `execute` and decremented by one after each job's completion hook: on
a fresh one-worker FIFO pool, after the `N` submissions of `subs` and before
any task runs the counter reads `N`; a worker loop that then runs all `N`
tasks to completion (and blocks) leaves it at `0`, having executed exactly
`N` tasks. -/
theorem get_task_count_lifecycle {T C J : Type} (subs : List (T × J × C))
    (h : subs.length < u64Lim) :
    ThreadPool.get_task_count
      (submitAll subs
        ({ pool := TaskPool.new FifoQueue.new [], task_count := 0 } :
          ThreadPoolSt (FifoQueue T C J) T C J)) = subs.length ∧
    (Worker.run (subs.length + 1)
      (submitAll subs
        ({ pool := TaskPool.new FifoQueue.new [], task_count := 0 } :
          ThreadPoolSt (FifoQueue T C J) T C J))).2.2.length = subs.length ∧
    ThreadPool.get_task_count
      (Worker.run (subs.length + 1)
        (submitAll subs
          ({ pool := TaskPool.new FifoQueue.new [], task_count := 0 } :
            ThreadPoolSt (FifoQueue T C J) T C J))).1 = 0 := by
  have hsub : submitAll subs
      ({ pool := TaskPool.new FifoQueue.new [], task_count := 0 } :
        ThreadPoolSt (FifoQueue T C J) T C J) =
      { pool := ⟨0, FifoQueue.new, false,
          subs.map (fun g => Task.new g.1 g.2.1 g.2.2)⟩,
        task_count := (0 + subs.length) % u64Lim } :=
    submitAll_spec subs _ (by simp [u64Lim])
  rw [Nat.zero_add, Nat.mod_eq_of_lt h] at hsub
  have hlen : (subs.map (fun g => Task.new g.1 g.2.1 g.2.2) :
      List (Task T C J)).length = subs.length := List.length_map _ _
  have hrfp := run_fresh_pool (subs.map (fun g => Task.new g.1 g.2.1 g.2.2) :
    List (Task T C J)) (by rw [hlen]; exact h)
  refine ⟨?_, ?_, ?_⟩
  · rw [hsub]
    rfl
  · rw [hsub, ← hlen]
    exact hrfp.1
  · rw [hsub, ← hlen]
    exact hrfp.2

/-- Two concrete submissions for exercising the task-count lifecycle. -/
def subsW : List (Nat × Unit × Unit) := [(1, (), ()), (2, (), ())]

theorem get_task_count_lifecycle_witness :
    subsW.length < u64Lim ∧
    (ThreadPool.get_task_count
      (submitAll subsW
        ({ pool := TaskPool.new FifoQueue.new [], task_count := 0 } :
          ThreadPoolSt (FifoQueue Nat Unit Unit) Nat Unit Unit)) = subsW.length ∧
    (Worker.run (subsW.length + 1)
      (submitAll subsW
        ({ pool := TaskPool.new FifoQueue.new [], task_count := 0 } :
          ThreadPoolSt (FifoQueue Nat Unit Unit) Nat Unit Unit))).2.2.length
        = subsW.length ∧
    ThreadPool.get_task_count
      (Worker.run (subsW.length + 1)
        (submitAll subsW
          ({ pool := TaskPool.new FifoQueue.new [], task_count := 0 } :
            ThreadPoolSt (FifoQueue Nat Unit Unit) Nat Unit Unit))).1 = 0) :=
  ⟨by decide, get_task_count_lifecycle subsW (by decide)⟩

end Threadpool
